import Mathlib

/-!
Shallow embedding of the per-pixel ray-integration kernel of the
event-horizon renderer (the WGSL fragment shader BLACK_HOLE_SHADER).
Machine floats are modelled as exact real numbers; WGSL builtin pow is
modelled as Real.rpow, fract as Int.fract, atan2 as Complex.arg.
-/

/-- Two-dimensional vector of reals, modelling WGSL vec2f. -/
structure Vec2 where
  x : ℝ
  y : ℝ

/-- Three-dimensional vector of reals, modelling WGSL vec3f. -/
structure Vec3 where
  x : ℝ
  y : ℝ
  z : ℝ

def Vec2.add (a b : Vec2) : Vec2 := ⟨a.x + b.x, a.y + b.y⟩

def Vec2.sub (a b : Vec2) : Vec2 := ⟨a.x - b.x, a.y - b.y⟩

def Vec2.smul (c : ℝ) (a : Vec2) : Vec2 := ⟨c * a.x, c * a.y⟩

/-- Componentwise product, modelling WGSL vec2f * vec2f. -/
def Vec2.cmul (a b : Vec2) : Vec2 := ⟨a.x * b.x, a.y * b.y⟩

def dot2 (a b : Vec2) : ℝ := a.x * b.x + a.y * b.y

def Vec3.add (a b : Vec3) : Vec3 := ⟨a.x + b.x, a.y + b.y, a.z + b.z⟩

def Vec3.sub (a b : Vec3) : Vec3 := ⟨a.x - b.x, a.y - b.y, a.z - b.z⟩

def Vec3.neg (a : Vec3) : Vec3 := ⟨-a.x, -a.y, -a.z⟩

def Vec3.smul (c : ℝ) (a : Vec3) : Vec3 := ⟨c * a.x, c * a.y, c * a.z⟩

def dot (a b : Vec3) : ℝ := a.x * b.x + a.y * b.y + a.z * b.z

def cross (a b : Vec3) : Vec3 :=
  ⟨a.y * b.z - a.z * b.y, a.z * b.x - a.x * b.z, a.x * b.y - a.y * b.x⟩

/-- Componentwise order on Vec3, used to state that accumulated color only grows. -/
def vle (a b : Vec3) : Prop := a.x ≤ b.x ∧ a.y ≤ b.y ∧ a.z ≤ b.z

/-- WGSL clamp on scalars. -/
noncomputable def clampR (x lo hi : ℝ) : ℝ := max lo (min x hi)

/-- WGSL mix on scalars: linear interpolation. -/
def mixR (a b t : ℝ) : ℝ := a + (b - a) * t

/-- WGSL smoothstep. -/
noncomputable def smoothstep (e0 e1 x : ℝ) : ℝ :=
  let t := clampR ((x - e0) / (e1 - e0)) 0 1
  t * t * (3 - 2 * t)

/-- WGSL normalizeV of a 3-vector: v / length(v). -/
noncomputable def normalizeV (v : Vec3) : Vec3 :=
  Vec3.smul (1 / Real.sqrt (dot v v)) v

/-- Shader hash: fract(sin(dot(p, vec2f(12.9898, 78.233))) * 43758.5453). -/
noncomputable def hash (p : Vec2) : ℝ :=
  Int.fract (Real.sin (dot2 p ⟨12.9898, 78.233⟩) * 43758.5453)

/-- Shader value noise over a 2D lattice. -/
noncomputable def noise (v : Vec2) : ℝ :=
  let i : Vec2 := ⟨(⌊v.x⌋ : ℝ), (⌊v.y⌋ : ℝ)⟩
  let f : Vec2 := ⟨Int.fract v.x, Int.fract v.y⟩
  let u : Vec2 := ⟨f.x * f.x * (3 - 2 * f.x), f.y * f.y * (3 - 2 * f.y)⟩
  mixR (mixR (hash (Vec2.add i ⟨0, 0⟩)) (hash (Vec2.add i ⟨1, 0⟩)) u.x)
       (mixR (hash (Vec2.add i ⟨0, 1⟩)) (hash (Vec2.add i ⟨1, 1⟩)) u.x) u.y

/-- One application of the fixed rotation matrix mat2x2f(cos .5, sin .5, -sin .5, cos .5)
used in the fbm loop (column-major, applied to a vector). -/
noncomputable def fbmRot (v : Vec2) : Vec2 :=
  ⟨Real.cos 0.5 * v.x - Real.sin 0.5 * v.y,
   Real.sin 0.5 * v.x + Real.cos 0.5 * v.y⟩

/-- Unrolled recursion of the fbm accumulation loop. -/
noncomputable def fbmAux : ℕ → ℝ → Vec2 → ℝ
  | 0, _, _ => 0
  | n + 1, a, p =>
      a * noise p + fbmAux n (a * 0.5) (Vec2.add (Vec2.smul 2 (fbmRot p)) ⟨100, 100⟩)

/-- Shader fbm: five octaves starting at amplitude 0.5. -/
noncomputable def fbm (p : Vec2) : ℝ := fbmAux 5 0.5 p

/-- WGSL atan2(y, x), modelled via the complex argument. -/
noncomputable def atan2 (y x : ℝ) : ℝ := Complex.arg ⟨x, y⟩

/-- Shader blackbody palette (clamps its argument to the unit interval). -/
noncomputable def blackbody (temp : ℝ) : Vec3 :=
  let t := clampR temp 0 1
  ⟨min (t * 3) 1 + max 0 (t - 0.5),
   min (t * 1.5) 1 * smoothstep 0.1 0.5 t,
   min (t * 0.5) 1 * smoothstep 0.4 0.8 t + max 0 (t - 0.9)⟩

/-- Total brightness of a color, the sum of its channels. -/
def brightness (v : Vec3) : ℝ := v.x + v.y + v.z

/-- Frame parameters consumed by the kernel (fields the integration reads). -/
structure Params where
  time : ℝ
  spin : ℝ
  diskIntensity : ℝ
  lensingEnabled : ℝ

/-- Clamped Kerr spin parameter: spin_a = clamp(params.spin, 0.0, 0.99). -/
noncomputable def spin_a (spin : ℝ) : ℝ := clampR spin 0 0.99

/-- Event horizon radius for Kerr as a function of the (clamped) spin:
horizon_r = 1.0 + sqrt(1.0 - spin_a * spin_a). -/
noncomputable def horizon_r (a : ℝ) : ℝ := 1 + Real.sqrt (1 - a * a)

/-- ISCO approximation: isco = 3.0 + sqrt(3.0 * (3.0 - 2.0 * spin_a)). -/
noncomputable def isco (a : ℝ) : ℝ := 3 + Real.sqrt (3 * (3 - 2 * a))

/-- Inner edge of the accretion disk: accretion_min = isco * 0.9. -/
noncomputable def accretion_min (a : ℝ) : ℝ := isco a * 0.9

/-- Outer edge of the accretion disk (fixed). -/
def accretion_max : ℝ := 12

/-- Lense-Thirring frame-dragging angular velocity of space,
omega_space = 2 a r / (r2 + a*a)^2: computed by the disk shader but
never applied to the gas kinematics. -/
noncomputable def omega_space (a r2 r : ℝ) : ℝ :=
  2 * a * r / Real.rpow (r2 + a * a) 2

/-- Keplerian angular velocity: omega_kepler = 1 / (pow(r, 1.5) + spin_a). -/
noncomputable def omega_kepler (r a : ℝ) : ℝ := 1 / (Real.rpow r 1.5 + a)

/-- Gas 3-velocity in the disk: vel_gas = vec3f(-pos.z, 0, pos.x) * omega_gas,
with omega_gas = omega_kepler. -/
noncomputable def vel_gas (a : ℝ) (pos : Vec3) : Vec3 :=
  Vec3.smul (omega_kepler (Real.sqrt (dot pos pos)) a) ⟨-pos.z, 0, pos.x⟩

/-- Squared gas speed: beta_sq = dot(beta_vec, beta_vec) with beta_vec = vel_gas. -/
noncomputable def beta_sq (a : ℝ) (pos : Vec3) : ℝ :=
  dot (vel_gas a pos) (vel_gas a pos)

/-- Relativistic Doppler factor D = 1 / (gamma * (1 - beta * cos_theta)) with
gamma = 1 / sqrt(1 - beta_sq) and beta = sqrt(beta_sq). -/
noncomputable def doppler (bsq cosTheta : ℝ) : ℝ :=
  1 / ((1 / Real.sqrt (1 - bsq)) * (1 - Real.sqrt bsq * cosTheta))

/-- Gravitational redshift factor sqrt(max(0.01, 1 - 2/r)). -/
noncomputable def grav_redshift (r : ℝ) : ℝ := Real.sqrt (max 0.01 (1 - 2 / r))

/-- Combined frequency shift for a disk sample: Doppler factor times
gravitational redshift, with cos_theta = dot(normalizeV(vel_gas), -normalizeV(rayVel)). -/
noncomputable def disk_shift (a : ℝ) (pos rayVel : Vec3) : ℝ :=
  doppler (beta_sq a pos) (dot (normalizeV (vel_gas a pos)) (Vec3.neg (normalizeV rayVel)))
    * grav_redshift (Real.sqrt (dot pos pos))

/-- Procedural disk density at a sample point (noise octaves times vertical
and radial fades), from the shader disk block. -/
noncomputable def disk_density (time a : ℝ) (pos : Vec3) : ℝ :=
  let r := Real.sqrt (dot pos pos)
  let dist_to_plane := |pos.y|
  let disk_h := 0.05 + 0.01 * r * r * 0.1
  let rot_angle := atan2 pos.z pos.x - time * omega_kepler r a * 10
  let uv_disk : Vec2 := ⟨r * 2, rot_angle⟩
  let noise_base := fbm (Vec2.smul 2 uv_disk)
  let noise_detail := fbm (Vec2.add (Vec2.smul 6 uv_disk) ⟨time, 0⟩)
  let vertical_fade := smoothstep disk_h 0 dist_to_plane
  let radial_fade := smoothstep (accretion_min a) (accretion_min a + 1) r *
    smoothstep accretion_max (accretion_max - 2) r
  (noise_base * 0.7 + noise_detail * 0.3) * vertical_fade * radial_fade

/-- Temperature profile: temp_profile = pow(accretion_min / r, 1.5). -/
noncomputable def temp_profile (a : ℝ) (pos : Vec3) : ℝ :=
  Real.rpow (accretion_min a / Real.sqrt (dot pos pos)) 1.5

/-- Beamed sample intensity: density * temp_profile * pow(shift, 4.0) * disk_intensity. -/
noncomputable def disk_intensity_at (time dI a : ℝ) (pos rayVel : Vec3) : ℝ :=
  disk_density time a pos * temp_profile a pos *
    Real.rpow (disk_shift a pos rayVel) 4 * dI

/-- Emitted color of a disk sample: blackbody(shifted_temp) * intensity * 2. -/
noncomputable def disk_emission (time dI a : ℝ) (pos rayVel : Vec3) : Vec3 :=
  Vec3.smul (disk_intensity_at time dI a pos rayVel * 2)
    (blackbody (temp_profile a pos * disk_shift a pos rayVel))

/-- Compositing opacity of a disk sample:
alpha = 1 - exp(-density * segment_len * 2) with segment_len = max(0.01, step_dist). -/
noncomputable def disk_alpha (time a : ℝ) (pos : Vec3) (stepDist : ℝ) : ℝ :=
  1 - Real.exp (-(disk_density time a pos * max 0.01 stepDist * 2))

/-- Volumetric disk shading of one sample: the body of the disk block,
returning the updated (color, transmittance) pair.  Skips all shading when
beta_sq is not < 0.99 or when the density is not > 0.05. -/
noncomputable def disk_sample (time dI a : ℝ) (pos rayVel : Vec3)
    (stepDist : ℝ) (col : Vec3) (T : ℝ) : Vec3 × ℝ :=
  if beta_sq a pos < 0.99 then
    if 0.05 < disk_density time a pos then
      (Vec3.add col (Vec3.smul (disk_alpha time a pos stepDist * T)
          (disk_emission time dI a pos rayVel)),
       T * (1 - disk_alpha time a pos stepDist))
    else (col, T)
  else (col, T)

/-- Guard of the disk block:
transmittance > 0.01 and r > accretion_min and r < accretion_max and
dist_to_plane < disk_h with disk_h = 0.05 + 0.01 * r * r * 0.1. -/
def disk_cond (T a r distToPlane : ℝ) : Prop :=
  0.01 < T ∧ (accretion_min a < r ∧ (r < accretion_max ∧
    distToPlane < 0.05 + 0.01 * r * r * 0.1))

noncomputable instance disk_cond_dec (T a r d : ℝ) : Decidable (disk_cond T a r d) :=
  inferInstanceAs (Decidable (0.01 < T ∧ (accretion_min a < r ∧ (r < accretion_max ∧
    d < 0.05 + 0.01 * r * r * 0.1))))

/-- Schwarzschild-like photon acceleration:
acc = -1.5 * RS * (dot(pos, vel))^2 / pow(r, 5.0) * pos with RS = 2. -/
noncomputable def acc_schwarzschild (pos vel : Vec3) : Vec3 :=
  let r := Real.sqrt (dot pos pos)
  let rv := dot pos vel
  Vec3.smul (-1.5 * 2 * (rv * rv) / Real.rpow r 5) pos

/-- Gravitomagnetic (frame dragging) acceleration.  NOTE: the guard and the
angular momentum vector J use the raw, unclamped spin parameter params.spin. -/
noncomputable def acc_spin (spin : ℝ) (pos vel : Vec3) : Vec3 :=
  if 0.01 < spin then
    let r2 := dot pos pos
    let r := Real.sqrt r2
    let J : Vec3 := Vec3.smul (spin * 1) ⟨0, 1, 0⟩
    let curl_field := Vec3.smul (1 / Real.rpow r 5)
      (Vec3.sub (Vec3.smul (3 * dot pos J) pos) (Vec3.smul r2 J))
    Vec3.smul 2 (cross vel curl_field)
  else ⟨0, 0, 0⟩

/-- Total acceleration applied to the photon. -/
noncomputable def acc_total (spin : ℝ) (pos vel : Vec3) : Vec3 :=
  Vec3.add (acc_schwarzschild pos vel) (acc_spin spin pos vel)

/-- Adaptive step size h = clamp(0.05 * (r - horizon_r), 0.02, 0.5). -/
noncomputable def step_h (r hr : ℝ) : ℝ := clampR (0.05 * (r - hr)) 0.02 0.5

/-- Termination tag of the integration loop (the spec states
MARCHING / ABSORBED / SATURATED (the ray became fully absorbing) / ESCAPED;
the step limit is reaching the
iteration bound while still marching). -/
inductive MarchStatus where
  | marching
  | absorbed
  | saturated
  | escaped
  deriving DecidableEq

/-- Per-pixel integration state. -/
structure MarchState where
  pos : Vec3
  vel : Vec3
  col : Vec3
  tr : ℝ
  stepDist : ℝ
  status : MarchStatus

/-- One iteration of the ray marching loop.  Terminal states are fixed points.
The escape test compares the radius computed at the top of the iteration
(before the position update) against 30, as the source does. -/
noncomputable def marchStep (p : Params) (s : MarchState) : MarchState :=
  if s.status ≠ MarchStatus.marching then s
  else
    let r := Real.sqrt (dot s.pos s.pos)
    let a := spin_a p.spin
    if r < horizon_r a then
      { s with col := Vec3.add s.col (Vec3.smul s.tr ⟨0, 0, 0⟩), tr := 0,
               status := MarchStatus.absorbed }
    else
      let ct :=
        if disk_cond s.tr a r |s.pos.y| then
          disk_sample p.time p.diskIntensity a s.pos s.vel s.stepDist s.col s.tr
        else (s.col, s.tr)
      if ct.2 < 0.01 then
        { s with col := ct.1, tr := ct.2, status := MarchStatus.saturated }
      else
        let h := step_h r (horizon_r a)
        let v2 := if 0.5 < p.lensingEnabled
          then normalizeV (Vec3.add s.vel (Vec3.smul h (acc_total p.spin s.pos s.vel)))
          else s.vel
        { pos := Vec3.add s.pos (Vec3.smul h v2), vel := v2, col := ct.1, tr := ct.2,
          stepDist := h,
          status := if 30 < r then MarchStatus.escaped else MarchStatus.marching }

/-- The state after n iterations of the loop. -/
noncomputable def march (p : Params) (s0 : MarchState) : ℕ → MarchState
  | 0 => s0
  | n + 1 => marchStep p (march p s0 n)

/-- Initial integration state for a pixel ray: color 0, transmittance 1. -/
def initState (pos vel : Vec3) : MarchState :=
  ⟨pos, vel, ⟨0, 0, 0⟩, 1, 0, MarchStatus.marching⟩

/-- Full integration: 120 loop iterations from the initial state. -/
noncomputable def integrate (p : Params) (pos vel : Vec3) : MarchState :=
  march p (initState pos vel) 120

/-- Procedural background (stars, nebula, dust) from the final ray direction. -/
noncomputable def background (time : ℝ) (vel : Vec3) : Vec3 :=
  let sky_dir := normalizeV vel
  let u := atan2 sky_dir.z sky_dir.x
  let v := sky_dir.y
  let uv_sky : Vec2 := ⟨u, v⟩
  let star1 := Real.rpow (max 0 (noise (Vec2.smul 150 uv_sky))) 40 * 1.5
  let star2 := Real.rpow (max 0 (noise (Vec2.add (Vec2.smul 60 uv_sky) ⟨5, 5⟩))) 50 * 2
  let stars := star1 + star2
  let warp := fbm (Vec2.add (Vec2.smul 3 uv_sky) ⟨0, time * 0.01⟩)
  let galactic_plane_dist := |v + warp * 0.1|
  let galaxy_density := 1 / (1 + galactic_plane_dist * 8)
  let neb_noise := fbm (Vec2.add (Vec2.cmul uv_sky ⟨5, 2⟩) ⟨warp, warp⟩)
  let neb_detail := fbm (Vec2.sub (Vec2.cmul uv_sky ⟨10, 5⟩) ⟨time * 0.02, time * 0.02⟩)
  let deep_purple : Vec3 := ⟨0.1, 0, 0.2⟩
  let cosmic_blue : Vec3 := ⟨0.1, 0.2, 0.5⟩
  let core_glow : Vec3 := ⟨1, 0.8, 0.6⟩
  let g1 := Vec3.add deep_purple (Vec3.smul neb_noise (Vec3.sub cosmic_blue deep_purple))
  let g2 := Vec3.add g1 (Vec3.smul (galaxy_density * neb_detail * galaxy_density)
    (Vec3.sub core_glow g1))
  let dust := fbm (Vec2.add (Vec2.smul 12 uv_sky) ⟨100, 100⟩)
  let dust_mask := smoothstep 0.4 0.7 dust
  let g3 := Vec3.smul (1 - dust_mask * 0.8 * galaxy_density) g2
  let galaxy_final := Vec3.smul (galaxy_density * 2) g3
  Vec3.add ⟨stars, stars, stars⟩ galaxy_final

/-- Accumulated radiance of a pixel after the loop and the background pass
(before tone mapping): the background is added only while transmittance
remains positive, weighted by the remaining transmittance. -/
noncomputable def finalRadiance (p : Params) (pos vel : Vec3) : Vec3 :=
  let s := integrate p pos vel
  if 0 < s.tr then Vec3.add s.col (Vec3.smul s.tr (background p.time s.vel))
  else s.col

/-! ### Basic lemmas about the embedded primitives -/

theorem vle_refl (v : Vec3) : vle v v := ⟨le_rfl, le_rfl, le_rfl⟩

theorem dot_self_nonneg (v : Vec3) : 0 ≤ dot v v := by
  unfold dot; nlinarith [sq_nonneg v.x, sq_nonneg v.y, sq_nonneg v.z]

theorem le_clampR (x lo hi : ℝ) : lo ≤ clampR x lo hi := le_max_left _ _

theorem clampR_le {x lo hi : ℝ} (h : lo ≤ hi) : clampR x lo hi ≤ hi :=
  max_le h (min_le_right _ _)

theorem clampR_eq_self {x lo hi : ℝ} (h1 : lo ≤ x) (h2 : x ≤ hi) : clampR x lo hi = x := by
  unfold clampR; rw [min_eq_left h2, max_eq_right h1]

theorem clampR_idem (x lo hi : ℝ) (h : lo ≤ hi) :
    clampR (clampR x lo hi) lo hi = clampR x lo hi :=
  clampR_eq_self (le_clampR x lo hi) (clampR_le h)

theorem clampR_mono {x y : ℝ} (lo hi : ℝ) (h : x ≤ y) : clampR x lo hi ≤ clampR y lo hi :=
  max_le_max le_rfl (min_le_min h le_rfl)

theorem smoothstep_nonneg (e0 e1 x : ℝ) : 0 ≤ smoothstep e0 e1 x := by
  unfold smoothstep
  have h0 : 0 ≤ clampR ((x - e0) / (e1 - e0)) 0 1 := le_clampR _ _ _
  have h1 : clampR ((x - e0) / (e1 - e0)) 0 1 ≤ 1 := clampR_le zero_le_one
  nlinarith

theorem smoothstep_mono (e0 e1 : ℝ) (he : e0 < e1) {x y : ℝ} (hxy : x ≤ y) :
    smoothstep e0 e1 x ≤ smoothstep e0 e1 y := by
  unfold smoothstep
  have hd : (x - e0) / (e1 - e0) ≤ (y - e0) / (e1 - e0) :=
    (div_le_div_iff_of_pos_right (by linarith)).mpr (by linarith)
  have hc : clampR ((x - e0) / (e1 - e0)) 0 1 ≤ clampR ((y - e0) / (e1 - e0)) 0 1 :=
    clampR_mono 0 1 hd
  have h0 : 0 ≤ clampR ((x - e0) / (e1 - e0)) 0 1 := le_clampR _ _ _
  have h1 : clampR ((y - e0) / (e1 - e0)) 0 1 ≤ 1 := clampR_le zero_le_one
  set t := clampR ((x - e0) / (e1 - e0)) 0 1
  set s := clampR ((y - e0) / (e1 - e0)) 0 1
  have hs0 : 0 ≤ s := le_trans h0 hc
  have ht1 : t ≤ 1 := le_trans hc h1
  show t * t * (3 - 2 * t) ≤ s * s * (3 - 2 * s)
  nlinarith [mul_nonneg (mul_nonneg (sub_nonneg.mpr hc) h0) (sub_nonneg.mpr ht1),
    mul_nonneg (mul_nonneg (sub_nonneg.mpr hc) hs0) (sub_nonneg.mpr h1),
    mul_nonneg (mul_nonneg (sub_nonneg.mpr hc) h0) (sub_nonneg.mpr h1),
    mul_nonneg (mul_nonneg (sub_nonneg.mpr hc) hs0) (sub_nonneg.mpr ht1)]

/-! ### C6: horizon radius properties -/

/-- C6: for a in the clamped spin range, horizonRadius a = 1 + sqrt (1 - a^2),
horizonRadius 0 = 2 exactly, horizonRadius is strictly decreasing on the range,
and horizonRadius 0.9 = 1 + sqrt 0.19, which is strictly less than horizonRadius 0. -/
theorem horizon_radius_props :
    horizon_r 0 = 2 ∧
    (∀ a : ℝ, horizon_r a = 1 + Real.sqrt (1 - a * a)) ∧
    (∀ a b : ℝ, 0 ≤ a → a < b → b ≤ 0.99 → horizon_r b < horizon_r a) ∧
    horizon_r 0.9 = 1 + Real.sqrt 0.19 ∧
    horizon_r 0.9 < 2 := by
  have hdec : ∀ a b : ℝ, 0 ≤ a → a < b → b ≤ 0.99 → horizon_r b < horizon_r a := by
    intro a b ha hab hb
    unfold horizon_r
    have h1 : 1 - b * b < 1 - a * a := by nlinarith
    have h2 : 0 ≤ 1 - b * b := by nlinarith
    have := Real.sqrt_lt_sqrt h2 h1
    linarith
  have h09 : horizon_r 0.9 = 1 + Real.sqrt 0.19 := by
    unfold horizon_r; norm_num
  refine ⟨?_, fun a => rfl, hdec, h09, ?_⟩
  · unfold horizon_r; rw [show (1 : ℝ) - 0 * 0 = 1 by norm_num, Real.sqrt_one]; norm_num
  · rw [h09]
    have : Real.sqrt 0.19 < Real.sqrt 1 := Real.sqrt_lt_sqrt (by norm_num) (by norm_num)
    rw [Real.sqrt_one] at this
    linarith

/-- C6 witness: the strict-decrease clause applied at spin 0 and spin 0.9. -/
theorem horizon_radius_props_witness :
    (0 : ℝ) ≤ 0 ∧ (0 : ℝ) < 0.9 ∧ (0.9 : ℝ) ≤ 0.99 ∧ horizon_r 0.9 < horizon_r 0 :=
  ⟨le_rfl, by norm_num, by norm_num,
    horizon_radius_props.2.2.1 0 0.9 le_rfl (by norm_num) (by norm_num)⟩

/-! ### C7: gas kinematics are purely Keplerian -/

/-- C7: the gas velocity used by the disk shader is exactly the Keplerian
angular velocity 1 / (r^1.5 + a) times the tangential direction (-z, 0, x);
it has no vertical component and is orthogonal to the cylindrical position,
and the frame-dragging angular velocity omega_space does not enter it. -/
theorem gas_velocity_keplerian (a : ℝ) (pos : Vec3) :
    vel_gas a pos =
      Vec3.smul (1 / (Real.rpow (Real.sqrt (dot pos pos)) 1.5 + a)) ⟨-pos.z, 0, pos.x⟩ ∧
    (vel_gas a pos).y = 0 ∧
    dot (vel_gas a pos) pos = 0 := by
  refine ⟨rfl, ?_, ?_⟩
  · simp [vel_gas, Vec3.smul]
  · simp [vel_gas, Vec3.smul, dot]; ring

/-! ### C9: Doppler factor for motion toward and away from the observer -/

/-- C9: for squared gas speed strictly between 0 and the 0.99 guard, the
Doppler factor exceeds 1 for gas moving directly toward the observer
(cos theta = 1) and is below 1 for gas moving directly away (cos theta = -1). -/
theorem doppler_toward_away (b : ℝ) (h1 : 0 < b) (h2 : b < 0.99) :
    1 < doppler b 1 ∧ doppler b (-1) < 1 := by
  have hb1 : b < 1 := lt_trans h2 (by norm_num)
  have hs0 : 0 < Real.sqrt b := Real.sqrt_pos.mpr h1
  have hs1 : Real.sqrt b < 1 := by
    have := Real.sqrt_lt_sqrt h1.le hb1
    rwa [Real.sqrt_one] at this
  have hq0 : (0 : ℝ) < 1 - b := by linarith
  have hsq0 : 0 < Real.sqrt (1 - b) := Real.sqrt_pos.mpr hq0
  have key : Real.sqrt b * Real.sqrt b = b := Real.mul_self_sqrt h1.le
  unfold doppler
  constructor
  · have hlt : 1 - Real.sqrt b < Real.sqrt (1 - b) := by
      have h' : (1 - Real.sqrt b) ^ 2 < 1 - b := by nlinarith
      exact (Real.lt_sqrt (by linarith)).mpr h'
    have he : 1 / Real.sqrt (1 - b) * (1 - Real.sqrt b * 1) =
        (1 - Real.sqrt b) / Real.sqrt (1 - b) := by ring
    rw [he]
    have hd1 : (1 - Real.sqrt b) / Real.sqrt (1 - b) < 1 := (div_lt_one hsq0).mpr hlt
    have hdp : 0 < (1 - Real.sqrt b) / Real.sqrt (1 - b) := div_pos (by linarith) hsq0
    calc (1 : ℝ) = ((1 - Real.sqrt b) / Real.sqrt (1 - b)) *
          (1 / ((1 - Real.sqrt b) / Real.sqrt (1 - b))) := by
            rw [mul_one_div, div_self (ne_of_gt hdp)]
      _ < 1 * (1 / ((1 - Real.sqrt b) / Real.sqrt (1 - b))) := by
            apply mul_lt_mul_of_pos_right hd1 (one_div_pos.mpr hdp)
      _ = 1 / ((1 - Real.sqrt b) / Real.sqrt (1 - b)) := one_mul _
  · have hle : Real.sqrt (1 - b) ≤ 1 := by
      have := Real.sqrt_le_sqrt (by linarith : 1 - b ≤ 1)
      rwa [Real.sqrt_one] at this
    have he : 1 / Real.sqrt (1 - b) * (1 - Real.sqrt b * (-1)) =
        (1 + Real.sqrt b) / Real.sqrt (1 - b) := by ring
    rw [he]
    have hgt : 1 < (1 + Real.sqrt b) / Real.sqrt (1 - b) :=
      (one_lt_div hsq0).mpr (by linarith)
    exact (div_lt_one (by linarith)).mpr hgt

/-- C9 witness: the Doppler statement applied at squared speed one quarter. -/
theorem doppler_toward_away_witness :
    (0 : ℝ) < 0.25 ∧ (0.25 : ℝ) < 0.99 ∧ 1 < doppler 0.25 1 ∧ doppler 0.25 (-1) < 1 :=
  ⟨by norm_num, by norm_num, (doppler_toward_away 0.25 (by norm_num) (by norm_num)).1,
    (doppler_toward_away 0.25 (by norm_num) (by norm_num)).2⟩

/-! ### C8: blackbody palette properties -/

theorem blackbody_channels_nonneg (t : ℝ) : vle ⟨0, 0, 0⟩ (blackbody t) := by
  unfold blackbody vle
  set u := clampR t 0 1 with hu
  have h0 : 0 ≤ u := le_clampR _ _ _
  refine ⟨?_, ?_, ?_⟩
  · simp only []
    have : (0 : ℝ) ≤ min (u * 3) 1 := le_min (by linarith) zero_le_one
    have h2 : (0 : ℝ) ≤ max 0 (u - 0.5) := le_max_left _ _
    linarith
  · simp only []
    exact mul_nonneg (le_min (by linarith) zero_le_one) (smoothstep_nonneg _ _ _)
  · simp only []
    have := mul_nonneg (le_min (by linarith : (0:ℝ) ≤ u * 0.5) zero_le_one)
      (smoothstep_nonneg 0.4 0.8 u)
    have h2 : (0 : ℝ) ≤ max 0 (u - 0.9) := le_max_left _ _
    linarith

theorem blackbody_mono {s t : ℝ} (hs : 0 ≤ s) (hst : s ≤ t) (ht : t ≤ 1) :
    vle (blackbody s) (blackbody t) := by
  unfold blackbody vle
  rw [clampR_eq_self hs (le_trans hst ht), clampR_eq_self (le_trans hs hst) ht]
  have hm1 : min (s * 3) 1 ≤ min (t * 3) 1 := min_le_min (by linarith) le_rfl
  have hm2 : max 0 (s - 0.5) ≤ max 0 (t - 0.5) := max_le_max le_rfl (by linarith)
  have hm3 : min (s * 1.5) 1 ≤ min (t * 1.5) 1 := min_le_min (by linarith) le_rfl
  have hm4 : min (s * 0.5) 1 ≤ min (t * 0.5) 1 := min_le_min (by linarith) le_rfl
  have hm5 : max 0 (s - 0.9) ≤ max 0 (t - 0.9) := max_le_max le_rfl (by linarith)
  have hg1 : smoothstep 0.1 0.5 s ≤ smoothstep 0.1 0.5 t :=
    smoothstep_mono 0.1 0.5 (by norm_num) hst
  have hg2 : smoothstep 0.4 0.8 s ≤ smoothstep 0.4 0.8 t :=
    smoothstep_mono 0.4 0.8 (by norm_num) hst
  refine ⟨by simp only []; linarith, ?_, ?_⟩
  · simp only []
    exact mul_le_mul hm3 hg1 (smoothstep_nonneg _ _ _)
      (le_min (by linarith) zero_le_one)
  · simp only []
    have := mul_le_mul hm4 hg2 (smoothstep_nonneg _ _ _)
      (le_min (by linarith) zero_le_one)
    linarith

/-- C8: the blackbody palette depends on its argument only through the clamp
to the unit interval; at temperature 0 it is the zero (dim, not blue-leaning)
color; at temperature 1 it is the bright color (1.5, 1, 0.6) with every channel
at least 0.6; and total brightness is monotone non-decreasing on the unit interval. -/
theorem blackbody_props :
    (∀ t : ℝ, blackbody t = blackbody (clampR t 0 1)) ∧
    blackbody 0 = ⟨0, 0, 0⟩ ∧
    blackbody 1 = ⟨1.5, 1, 0.6⟩ ∧
    (∀ s t : ℝ, 0 ≤ s → s ≤ t → t ≤ 1 →
      brightness (blackbody s) ≤ brightness (blackbody t)) := by
  refine ⟨?_, ?_, ?_, ?_⟩
  · intro t
    unfold blackbody
    rw [clampR_idem t 0 1 zero_le_one]
  · simp only [blackbody]
    rw [clampR_eq_self le_rfl zero_le_one]
    have hs : smoothstep 0.1 0.5 0 = 0 := by
      unfold smoothstep
      rw [show ((0 : ℝ) - 0.1) / (0.5 - 0.1) = -0.25 by norm_num]
      rw [show clampR (-0.25) 0 1 = 0 from by
        unfold clampR; rw [min_eq_left (by norm_num), max_eq_left (by norm_num)]]
      ring
    norm_num [hs]
  · simp only [blackbody]
    rw [clampR_eq_self zero_le_one le_rfl]
    have hs1 : smoothstep 0.1 0.5 1 = 1 := by
      unfold smoothstep
      rw [show ((1 : ℝ) - 0.1) / (0.5 - 0.1) = 2.25 by norm_num]
      rw [show clampR (2.25) 0 1 = 1 from by
        unfold clampR; rw [min_eq_right (by norm_num), max_eq_right (by norm_num)]]
      ring
    have hs2 : smoothstep 0.4 0.8 1 = 1 := by
      unfold smoothstep
      rw [show ((1 : ℝ) - 0.4) / (0.8 - 0.4) = 1.5 by norm_num]
      rw [show clampR (1.5) 0 1 = 1 from by
        unfold clampR; rw [min_eq_right (by norm_num), max_eq_right (by norm_num)]]
      ring
    rw [hs1, hs2]
    norm_num
  · intro s t hs hst ht
    have h := blackbody_mono hs hst ht
    unfold vle at h
    unfold brightness
    linarith [h.1, h.2.1, h.2.2]

/-- C8 witness: brightness monotonicity applied at temperatures 0.2 and 0.7. -/
theorem blackbody_props_witness :
    (0 : ℝ) ≤ 0.2 ∧ (0.2 : ℝ) ≤ 0.7 ∧ (0.7 : ℝ) ≤ 1 ∧
    brightness (blackbody 0.2) ≤ brightness (blackbody 0.7) :=
  ⟨by norm_num, by norm_num, by norm_num,
    blackbody_props.2.2.2 0.2 0.7 (by norm_num) (by norm_num) (by norm_num)⟩

/-! ### C10: samples with too-low density or too-fast gas leave the accumulators unchanged -/

/-- C10: inside the disk region, a sample whose gas speed violates the
relativistic guard (beta_sq at least 0.99) or whose density is at most 0.05
contributes nothing: the disk shader returns the color and transmittance
exactly unchanged. -/
theorem disk_sample_skip (time dI a stepDist T : ℝ) (pos rayVel col : Vec3)
    (h : 0.99 ≤ beta_sq a pos ∨ disk_density time a pos ≤ 0.05) :
    disk_sample time dI a pos rayVel stepDist col T = (col, T) := by
  unfold disk_sample
  rcases h with h | h
  · rw [if_neg (not_lt.mpr h)]
  · by_cases hb : beta_sq a pos < 0.99
    · rw [if_pos hb, if_neg (not_lt.mpr h)]
    · rw [if_neg hb]

theorem beta_sq_unit_radius : beta_sq 0 ⟨1, 0, 0⟩ = 1 := by
  unfold beta_sq vel_gas omega_kepler dot Vec3.smul
  norm_num [Real.sqrt_one, Real.one_rpow]

/-- C10 witness: at position (1,0,0) with spin 0 the squared gas speed is exactly 1,
so the fast-gas guard fires and the sample is skipped. -/
theorem disk_sample_skip_witness :
    0.99 ≤ beta_sq 0 ⟨1, 0, 0⟩ ∧
    disk_sample 0 1 0 ⟨1, 0, 0⟩ ⟨0, 0, 1⟩ 0 ⟨0.3, 0.2, 0.1⟩ 1 = (⟨0.3, 0.2, 0.1⟩, 1) := by
  have h : (0.99 : ℝ) ≤ beta_sq 0 ⟨1, 0, 0⟩ := by rw [beta_sq_unit_radius]; norm_num
  exact ⟨h, disk_sample_skip 0 1 0 0 1 ⟨1, 0, 0⟩ ⟨0, 0, 1⟩ ⟨0.3, 0.2, 0.1⟩ (Or.inl h)⟩

/-! ### C4: the disk trigger uses strict inequalities at the radial edges -/

theorem sqrt_nine : Real.sqrt 9 = 3 := by
  rw [show (9 : ℝ) = 3 ^ 2 by norm_num, Real.sqrt_sq (by norm_num)]

theorem spin_a_zero : spin_a 0 = 0 :=
  clampR_eq_self le_rfl (by norm_num)

theorem accretion_min_at_zero : accretion_min (spin_a 0) = 5.4 := by
  rw [spin_a_zero]
  unfold accretion_min isco
  rw [show (3 : ℝ) * (3 - 2 * 0) = 9 by norm_num, sqrt_nine]
  norm_num

/-- C4 counterexample: with spin 0 the inner disk edge is exactly 5.4.  At the
in-plane point of radius exactly 5.4 with full transmittance, the claimed
trigger with non-strict radial comparisons holds, but the guard actually used
by the integration step does not fire, because the source compares r to the
accretion bounds strictly. -/
theorem disk_trigger_boundary_counterexample :
    ((0.01 : ℝ) < 1 ∧
      accretion_min (spin_a 0) ≤ Real.sqrt (dot ⟨5.4, 0, 0⟩ ⟨5.4, 0, 0⟩) ∧
      Real.sqrt (dot ⟨5.4, 0, 0⟩ ⟨5.4, 0, 0⟩) ≤ accretion_max ∧
      |(0 : ℝ)| < 0.05 + 0.01 * Real.sqrt (dot ⟨5.4, 0, 0⟩ ⟨5.4, 0, 0⟩) *
        Real.sqrt (dot ⟨5.4, 0, 0⟩ ⟨5.4, 0, 0⟩) * 0.1) ∧
    ¬ disk_cond 1 (spin_a 0) (Real.sqrt (dot ⟨5.4, 0, 0⟩ ⟨5.4, 0, 0⟩)) |(0 : ℝ)| := by
  have hr : Real.sqrt (dot ⟨5.4, 0, 0⟩ ⟨5.4, 0, 0⟩) = 5.4 := by
    unfold dot
    rw [show (5.4 : ℝ) * 5.4 + 0 * 0 + 0 * 0 = 5.4 ^ 2 by norm_num,
      Real.sqrt_sq (by norm_num)]
  rw [hr, accretion_min_at_zero]
  constructor
  · refine ⟨by norm_num, le_rfl, by norm_num [accretion_max], by norm_num⟩
  · intro h
    rw [disk_cond, accretion_min_at_zero] at h
    exact absurd h.2.1 (by norm_num)

/-- C4 amended: the Volumetric Disk Shader is invoked if and only if
transmittance > 0.01 and accretionMin < r < accretionMax (strict comparisons)
and the distance to the plane is below the half thickness 0.05 + 0.001 r^2. -/
theorem disk_trigger_strict (T a r d : ℝ) :
    disk_cond T a r d ↔
      (0.01 < T ∧ accretion_min a < r ∧ r < 12 ∧ d < 0.05 + 0.001 * r ^ 2) := by
  unfold disk_cond accretion_max
  rw [show (0.05 : ℝ) + 0.01 * r * r * 0.1 = 0.05 + 0.001 * r ^ 2 by ring]

/-! ### C3: the gravitomagnetic term reads the raw spin -/

theorem rpow_three_five : Real.rpow 3 5 = 243 := by
  have h : (3 : ℝ) ^ (5 : ℝ) = 243 := by
    rw [show (5 : ℝ) = ((5 : ℕ) : ℝ) by norm_num, Real.rpow_natCast]
    norm_num
  exact h

theorem acc_spin_eval (s : ℝ) (hs : 0.01 < s) :
    acc_spin s ⟨3, 0, 0⟩ ⟨0, 0, 1⟩ = ⟨2 * (9 * s) / 243, 0, 0⟩ := by
  unfold acc_spin
  rw [if_pos hs]
  have hd : dot ⟨3, 0, 0⟩ ⟨3, 0, 0⟩ = (9 : ℝ) := by unfold dot; norm_num
  simp only [hd, sqrt_nine, rpow_three_five]
  unfold dot cross Vec3.smul Vec3.sub
  rw [Vec3.mk.injEq]
  norm_num
  ring

/-- C3 counterexample: the spin-force term consumes the raw spin input, so the
spin input 2 and its clamp 0.99 yield different gravitomagnetic accelerations
at the same ray state; the claim that every internal use of spin consumes the
clamped value is false. -/
theorem acc_spin_uses_raw_spin :
    acc_spin 2 ⟨3, 0, 0⟩ ⟨0, 0, 1⟩ ≠ acc_spin (clampR 2 0 0.99) ⟨3, 0, 0⟩ ⟨0, 0, 1⟩ := by
  have hc : clampR 2 0 0.99 = 0.99 := by
    unfold clampR; rw [min_eq_right (by norm_num), max_eq_right (by norm_num)]
  rw [acc_spin_eval 2 (by norm_num), hc, acc_spin_eval 0.99 (by norm_num)]
  intro h
  have hx := congrArg Vec3.x h
  norm_num at hx

theorem marchStep_spin_clamp (p : Params) (hl : p.lensingEnabled ≤ 0.5) (s : MarchState) :
    marchStep { p with spin := clampR p.spin 0 0.99 } s = marchStep p s := by
  obtain ⟨pt, ps, pd, pl⟩ := p
  simp only at hl
  have hsa : spin_a (clampR ps 0 0.99) = spin_a ps := clampR_idem ps 0 0.99 (by norm_num)
  unfold marchStep
  simp only [hsa]
  rw [if_neg (not_lt.mpr hl), if_neg (not_lt.mpr hl)]

theorem march_spin_clamp (p : Params) (hl : p.lensingEnabled ≤ 0.5) (s0 : MarchState) (n : ℕ) :
    march { p with spin := clampR p.spin 0 0.99 } s0 n = march p s0 n := by
  induction n with
  | zero => rfl
  | succ k ih =>
      simp only [march]
      rw [ih, marchStep_spin_clamp p hl]

/-- C3 amended: the horizon radius, the ISCO, and the whole disk shader consume
the spin input only through its clamp to the guarded range, and with lensing
disabled the entire per-pixel integration and radiance are invariant under
replacing the spin input by its clamp; the gravitomagnetic spin-force term
however reads the raw spin, so with lensing enabled a spin input outside the
clamp range can change the output (see the counterexample). -/
theorem spin_clamp_amended (p : Params) (hl : p.lensingEnabled ≤ 0.5) :
    spin_a (clampR p.spin 0 0.99) = spin_a p.spin ∧
    horizon_r (spin_a (clampR p.spin 0 0.99)) = horizon_r (spin_a p.spin) ∧
    isco (spin_a (clampR p.spin 0 0.99)) = isco (spin_a p.spin) ∧
    (∀ (pos rayVel : Vec3) (stepDist : ℝ) (col : Vec3) (T : ℝ),
      disk_sample p.time p.diskIntensity (spin_a (clampR p.spin 0 0.99))
          pos rayVel stepDist col T =
        disk_sample p.time p.diskIntensity (spin_a p.spin) pos rayVel stepDist col T) ∧
    (∀ pos vel : Vec3,
      integrate { p with spin := clampR p.spin 0 0.99 } pos vel = integrate p pos vel) ∧
    (∀ pos vel : Vec3,
      finalRadiance { p with spin := clampR p.spin 0 0.99 } pos vel =
        finalRadiance p pos vel) := by
  have hsa : spin_a (clampR p.spin 0 0.99) = spin_a p.spin :=
    clampR_idem p.spin 0 0.99 (by norm_num)
  have hint : ∀ pos vel : Vec3,
      integrate { p with spin := clampR p.spin 0 0.99 } pos vel = integrate p pos vel := by
    intro pos vel
    unfold integrate
    exact march_spin_clamp p hl (initState pos vel) 120
  refine ⟨hsa, by rw [hsa], by rw [hsa], fun pos rayVel stepDist col T => by rw [hsa],
    hint, ?_⟩
  intro pos vel
  unfold finalRadiance
  rw [hint pos vel]

/-- C3 amended witness: with lensing disabled and raw spin 2, clamping the spin
before integrating leaves the pixel integration unchanged. -/
theorem spin_clamp_amended_witness :
    (Params.mk 0 2 1 0).lensingEnabled ≤ 0.5 ∧
    integrate (Params.mk 0 (clampR 2 0 0.99) 1 0) ⟨25, 0, 0⟩ ⟨1, 0, 0⟩ =
      integrate (Params.mk 0 2 1 0) ⟨25, 0, 0⟩ ⟨1, 0, 0⟩ :=
  ⟨by norm_num, (spin_clamp_amended (Params.mk 0 2 1 0) (by norm_num)).2.2.2.2.1
    ⟨25, 0, 0⟩ ⟨1, 0, 0⟩⟩

/-! ### C2: rays starting inside the horizon are absorbed immediately -/

theorem marchStep_done {p : Params} {s : MarchState}
    (h : s.status ≠ MarchStatus.marching) : marchStep p s = s := by
  unfold marchStep
  rw [if_pos h]

theorem march_frozen (p : Params) (s0 : MarchState) (k : ℕ)
    (h : (march p s0 k).status ≠ MarchStatus.marching) :
    ∀ n, k ≤ n → march p s0 n = march p s0 k := by
  intro n hkn
  induction n with
  | zero =>
      have : k = 0 := Nat.le_zero.mp hkn
      rw [this]
  | succ m ih =>
      rcases eq_or_lt_of_le hkn with heq | hlt
      · rw [heq]
      · have hm := ih (Nat.lt_succ_iff.mp hlt)
        simp only [march]
        rw [hm]
        exact marchStep_done h

theorem horizon_r_spin_zero : horizon_r (spin_a 0) = 2 := by
  rw [spin_a_zero]
  unfold horizon_r
  rw [show (1 : ℝ) - 0 * 0 = 1 by norm_num, Real.sqrt_one]
  norm_num

/-- C2: a ray whose starting radius is below the horizon radius is absorbed on
the first loop iteration with color still exactly zero and transmittance
exactly zero, the state never changes afterwards, and neither the disk nor the
background ever contributes to that pixel. -/
theorem horizon_absorbs_immediately (p : Params) (pos0 vel0 : Vec3)
    (h : Real.sqrt (dot pos0 pos0) < horizon_r (spin_a p.spin)) :
    (march p (initState pos0 vel0) 1).status = MarchStatus.absorbed ∧
    (march p (initState pos0 vel0) 1).tr = 0 ∧
    (march p (initState pos0 vel0) 1).col = ⟨0, 0, 0⟩ ∧
    (∀ n, 1 ≤ n → march p (initState pos0 vel0) n = march p (initState pos0 vel0) 1) ∧
    (integrate p pos0 vel0).tr = 0 ∧
    (integrate p pos0 vel0).col = ⟨0, 0, 0⟩ ∧
    (integrate p pos0 vel0).status = MarchStatus.absorbed ∧
    finalRadiance p pos0 vel0 = ⟨0, 0, 0⟩ := by
  have hstep : march p (initState pos0 vel0) 1 =
      ⟨pos0, vel0, ⟨0, 0, 0⟩, 0, 0, MarchStatus.absorbed⟩ := by
    show marchStep p (initState pos0 vel0) = _
    unfold marchStep initState
    rw [if_neg (by simp : ¬ (MarchStatus.marching ≠ MarchStatus.marching))]
    rw [if_pos h]
    simp only [Vec3.add, Vec3.smul]
    rw [MarchState.mk.injEq, Vec3.mk.injEq]
    norm_num
  have hfrozen := march_frozen p (initState pos0 vel0) 1 (by rw [hstep]; simp)
  have hint : integrate p pos0 vel0 = ⟨pos0, vel0, ⟨0, 0, 0⟩, 0, 0, MarchStatus.absorbed⟩ := by
    unfold integrate
    rw [hfrozen 120 (by norm_num), hstep]
  refine ⟨by rw [hstep], by rw [hstep], by rw [hstep], hfrozen, by rw [hint], by rw [hint],
    by rw [hint], ?_⟩
  unfold finalRadiance
  rw [hint]
  norm_num

/-- C2 witness: a ray starting at radius 1 with spin 0 (horizon radius 2) is
absorbed with zero final radiance. -/
theorem horizon_absorbs_immediately_witness :
    Real.sqrt (dot ⟨1, 0, 0⟩ ⟨1, 0, 0⟩) < horizon_r (spin_a (Params.mk 0 0 1 1).spin) ∧
    finalRadiance (Params.mk 0 0 1 1) ⟨1, 0, 0⟩ ⟨0, 0, 1⟩ = ⟨0, 0, 0⟩ := by
  have h : Real.sqrt (dot ⟨1, 0, 0⟩ ⟨1, 0, 0⟩) < horizon_r (spin_a (Params.mk 0 0 1 1).spin) := by
    have h1 : dot ⟨1, 0, 0⟩ ⟨1, 0, 0⟩ = (1 : ℝ) := by unfold dot; norm_num
    rw [h1, Real.sqrt_one]
    rw [show (Params.mk 0 0 1 1).spin = (0 : ℝ) from rfl, horizon_r_spin_zero]
    norm_num
  exact ⟨h, (horizon_absorbs_immediately (Params.mk 0 0 1 1) ⟨1, 0, 0⟩ ⟨0, 0, 1⟩ h).2.2.2.2.2.2.2⟩

/-! ### C1: transmittance and color accumulator invariants -/

theorem dot_sq_le (u w : Vec3) : (dot u w) ^ 2 ≤ (dot u u) * (dot w w) := by
  unfold dot
  nlinarith [sq_nonneg (u.x * w.y - u.y * w.x), sq_nonneg (u.x * w.z - u.z * w.x),
    sq_nonneg (u.y * w.z - u.z * w.y)]

theorem self_mul_one_div_le_one {x : ℝ} (hx : 0 ≤ x) : x * (1 / x) ≤ 1 := by
  rcases eq_or_lt_of_le hx with h | h
  · rw [← h]; norm_num
  · rw [mul_one_div, div_self (ne_of_gt h)]

theorem abs_dot_normalizeV_le (u w : Vec3) : |dot (normalizeV u) (normalizeV w)| ≤ 1 := by
  unfold normalizeV
  have hd : dot (Vec3.smul (1 / Real.sqrt (dot u u)) u)
      (Vec3.smul (1 / Real.sqrt (dot w w)) w) =
      1 / Real.sqrt (dot u u) * (1 / Real.sqrt (dot w w)) * dot u w := by
    unfold dot Vec3.smul; ring
  rw [hd]
  have hA : 0 ≤ dot u u := dot_self_nonneg u
  have hB : 0 ≤ dot w w := dot_self_nonneg w
  have habs : |dot u w| ≤ Real.sqrt (dot u u) * Real.sqrt (dot w w) := by
    rw [← Real.sqrt_sq_eq_abs, ← Real.sqrt_mul hA]
    exact Real.sqrt_le_sqrt (dot_sq_le u w)
  have h1 : (0 : ℝ) ≤ 1 / Real.sqrt (dot u u) := by positivity
  have h2 : (0 : ℝ) ≤ 1 / Real.sqrt (dot w w) := by positivity
  calc |1 / Real.sqrt (dot u u) * (1 / Real.sqrt (dot w w)) * dot u w|
      = 1 / Real.sqrt (dot u u) * (1 / Real.sqrt (dot w w)) * |dot u w| := by
        rw [abs_mul, abs_of_nonneg (mul_nonneg h1 h2)]
    _ ≤ 1 / Real.sqrt (dot u u) * (1 / Real.sqrt (dot w w)) *
        (Real.sqrt (dot u u) * Real.sqrt (dot w w)) := by
        exact mul_le_mul_of_nonneg_left habs (mul_nonneg h1 h2)
    _ = (Real.sqrt (dot u u) * (1 / Real.sqrt (dot u u))) *
        (Real.sqrt (dot w w) * (1 / Real.sqrt (dot w w))) := by ring
    _ ≤ 1 * 1 := by
        exact mul_le_mul (self_mul_one_div_le_one (Real.sqrt_nonneg _))
          (self_mul_one_div_le_one (Real.sqrt_nonneg _))
          (mul_nonneg (Real.sqrt_nonneg _) h2) zero_le_one
    _ = 1 := one_mul 1

theorem cos_theta_le_one (u w : Vec3) :
    dot (normalizeV u) (Vec3.neg (normalizeV w)) ≤ 1 := by
  have hneg : dot (normalizeV u) (Vec3.neg (normalizeV w)) =
      -(dot (normalizeV u) (normalizeV w)) := by
    unfold dot Vec3.neg; ring
  rw [hneg]
  have := abs_dot_normalizeV_le u w
  have h2 := neg_abs_le (dot (normalizeV u) (normalizeV w))
  linarith [abs_nonneg (dot (normalizeV u) (normalizeV w)), neg_le_abs
    (dot (normalizeV u) (normalizeV w))]

theorem doppler_pos {bsq c : ℝ} (h0 : 0 ≤ bsq) (h1 : bsq < 0.99) (hc : c ≤ 1) :
    0 < doppler bsq c := by
  unfold doppler
  have hs : Real.sqrt bsq < 1 := by
    have := Real.sqrt_lt_sqrt h0 (show bsq < 1 by linarith)
    rwa [Real.sqrt_one] at this
  have hsb : 0 ≤ Real.sqrt bsq := Real.sqrt_nonneg _
  have h2 : Real.sqrt bsq * c ≤ Real.sqrt bsq * 1 := mul_le_mul_of_nonneg_left hc hsb
  have hden2 : 0 < 1 - Real.sqrt bsq * c := by rw [mul_one] at h2; linarith
  have hq : 0 < Real.sqrt (1 - bsq) := Real.sqrt_pos.mpr (by linarith)
  exact one_div_pos.mpr (mul_pos (one_div_pos.mpr hq) hden2)

theorem accretion_min_nonneg (a : ℝ) : 0 ≤ accretion_min a := by
  unfold accretion_min isco
  have := Real.sqrt_nonneg (3 * (3 - 2 * a))
  nlinarith

theorem disk_shift_nonneg (a : ℝ) (pos rayVel : Vec3)
    (hb : beta_sq a pos < 0.99) : 0 ≤ disk_shift a pos rayVel := by
  unfold disk_shift
  have hb0 : 0 ≤ beta_sq a pos := dot_self_nonneg (vel_gas a pos)
  exact mul_nonneg (doppler_pos hb0 hb (cos_theta_le_one (vel_gas a pos) rayVel)).le
    (Real.sqrt_nonneg _)

theorem disk_emission_nonneg (time dI a : ℝ) (pos rayVel : Vec3)
    (hdI : 0 ≤ dI) (hd : 0 ≤ disk_density time a pos) (hb : beta_sq a pos < 0.99) :
    0 ≤ (disk_emission time dI a pos rayVel).x ∧
    0 ≤ (disk_emission time dI a pos rayVel).y ∧
    0 ≤ (disk_emission time dI a pos rayVel).z := by
  unfold disk_emission
  have hI : 0 ≤ disk_intensity_at time dI a pos rayVel * 2 := by
    unfold disk_intensity_at
    have htp : 0 ≤ temp_profile a pos := by
      unfold temp_profile
      exact Real.rpow_nonneg
        (div_nonneg (accretion_min_nonneg a) (Real.sqrt_nonneg _)) _
    have hs4 : 0 ≤ Real.rpow (disk_shift a pos rayVel) 4 :=
      Real.rpow_nonneg (disk_shift_nonneg a pos rayVel hb) _
    positivity
  have hbb := blackbody_channels_nonneg (temp_profile a pos * disk_shift a pos rayVel)
  unfold vle at hbb
  simp only [] at hbb
  unfold Vec3.smul
  exact ⟨mul_nonneg hI hbb.1, mul_nonneg hI hbb.2.1, mul_nonneg hI hbb.2.2⟩

theorem disk_alpha_bounds (time a : ℝ) (pos : Vec3) (stepDist : ℝ)
    (hd : 0.05 < disk_density time a pos) :
    0 < disk_alpha time a pos stepDist ∧ disk_alpha time a pos stepDist < 1 := by
  unfold disk_alpha
  have hseg : (0 : ℝ) < max 0.01 stepDist := lt_of_lt_of_le (by norm_num) (le_max_left _ _)
  have he : 0 < disk_density time a pos * max 0.01 stepDist * 2 := by
    have : (0 : ℝ) < disk_density time a pos := lt_trans (by norm_num) hd
    positivity
  constructor
  · have : Real.exp (-(disk_density time a pos * max 0.01 stepDist * 2)) < 1 :=
      Real.exp_lt_one_iff.mpr (by linarith)
    linarith
  · have := Real.exp_pos (-(disk_density time a pos * max 0.01 stepDist * 2))
    linarith

theorem disk_sample_bounds (time dI a stepDist T : ℝ) (pos rayVel col : Vec3)
    (hdI : 0 ≤ dI) (hT : 0 ≤ T) :
    0 ≤ (disk_sample time dI a pos rayVel stepDist col T).2 ∧
    (disk_sample time dI a pos rayVel stepDist col T).2 ≤ T ∧
    vle col (disk_sample time dI a pos rayVel stepDist col T).1 := by
  unfold disk_sample
  split_ifs with h1 h2
  · have ha := disk_alpha_bounds time a pos stepDist h2
    have hem := disk_emission_nonneg time dI a pos rayVel hdI
      (le_of_lt (lt_trans (by norm_num) h2)) h1
    refine ⟨mul_nonneg hT (by linarith), ?_, ?_⟩
    · calc T * (1 - disk_alpha time a pos stepDist) ≤ T * 1 :=
          mul_le_mul_of_nonneg_left (by linarith) hT
        _ = T := mul_one T
    · have hat : 0 ≤ disk_alpha time a pos stepDist * T := mul_nonneg ha.1.le hT
      unfold vle Vec3.add Vec3.smul
      exact ⟨le_add_of_nonneg_right (mul_nonneg hat hem.1),
        le_add_of_nonneg_right (mul_nonneg hat hem.2.1),
        le_add_of_nonneg_right (mul_nonneg hat hem.2.2)⟩
  · exact ⟨hT, le_rfl, vle_refl col⟩
  · exact ⟨hT, le_rfl, vle_refl col⟩

theorem marchStep_bounds (p : Params) (s : MarchState)
    (hdI : 0 ≤ p.diskIntensity) (hT : 0 ≤ s.tr) :
    (marchStep p s).tr ≤ s.tr ∧ 0 ≤ (marchStep p s).tr ∧ vle s.col (marchStep p s).col := by
  by_cases hst : s.status ≠ MarchStatus.marching
  · rw [marchStep_done hst]
    exact ⟨le_rfl, hT, vle_refl _⟩
  · unfold marchStep
    rw [if_neg hst]
    simp only []
    by_cases h2 : Real.sqrt (dot s.pos s.pos) < horizon_r (spin_a p.spin)
    · rw [if_pos h2]
      refine ⟨hT, le_rfl, ?_⟩
      unfold vle Vec3.add Vec3.smul
      simp only []
      norm_num
    · rw [if_neg h2]
      by_cases hc : disk_cond s.tr (spin_a p.spin) (Real.sqrt (dot s.pos s.pos)) |s.pos.y|
      · rw [if_pos hc]
        have hb := disk_sample_bounds p.time p.diskIntensity (spin_a p.spin) s.stepDist
          s.tr s.pos s.vel s.col hdI hT
        split_ifs <;> exact ⟨hb.2.1, hb.1, hb.2.2⟩
      · rw [if_neg hc]
        split_ifs <;> exact ⟨le_rfl, hT, vle_refl _⟩

/-- C1: for every frame parameters (with the non-negative disk intensity the
data model requires) and every pixel ray, the transmittance accumulator starts
at exactly 1, never increases from one integration step to the next, always
stays inside the unit interval, and the accumulated color never decreases in
any channel; moreover a shaded disk step adds emission times alpha times
transmittance to the color while multiplying the transmittance by (1 - alpha). -/
theorem march_transmittance_invariant (p : Params) (pos0 vel0 : Vec3)
    (hdI : 0 ≤ p.diskIntensity) (n : ℕ) :
    (march p (initState pos0 vel0) 0).tr = 1 ∧
    (march p (initState pos0 vel0) (n + 1)).tr ≤ (march p (initState pos0 vel0) n).tr ∧
    0 ≤ (march p (initState pos0 vel0) n).tr ∧
    (march p (initState pos0 vel0) n).tr ≤ 1 ∧
    vle (march p (initState pos0 vel0) n).col (march p (initState pos0 vel0) (n + 1)).col ∧
    (∀ (time dI a stepDist T : ℝ) (pos rayVel col : Vec3),
      beta_sq a pos < 0.99 → 0.05 < disk_density time a pos →
      disk_sample time dI a pos rayVel stepDist col T =
        (Vec3.add col (Vec3.smul (disk_alpha time a pos stepDist * T)
            (disk_emission time dI a pos rayVel)),
         T * (1 - disk_alpha time a pos stepDist))) := by
  have inv : ∀ m, 0 ≤ (march p (initState pos0 vel0) m).tr ∧
      (march p (initState pos0 vel0) m).tr ≤ 1 := by
    intro m
    induction m with
    | zero => exact ⟨by norm_num [march, initState], by norm_num [march, initState]⟩
    | succ k ih =>
        have hb := marchStep_bounds p (march p (initState pos0 vel0) k) hdI ih.1
        exact ⟨hb.2.1, le_trans hb.1 ih.2⟩
  have hb := marchStep_bounds p (march p (initState pos0 vel0) n) hdI (inv n).1
  refine ⟨rfl, hb.1, (inv n).1, (inv n).2, hb.2.2, ?_⟩
  intro time dI a stepDist T pos rayVel col h1 h2
  unfold disk_sample
  rw [if_pos h1, if_pos h2]

/-- C1 witness: the invariant applied to a concrete frame and ray at step 0. -/
theorem march_transmittance_invariant_witness :
    0 ≤ (Params.mk 0 0.5 1 1).diskIntensity ∧
    (march (Params.mk 0 0.5 1 1) (initState ⟨3, 1, 0⟩ ⟨0, 0, 1⟩) 0).tr = 1 ∧
    (march (Params.mk 0 0.5 1 1) (initState ⟨3, 1, 0⟩ ⟨0, 0, 1⟩) 1).tr ≤
      (march (Params.mk 0 0.5 1 1) (initState ⟨3, 1, 0⟩ ⟨0, 0, 1⟩) 0).tr := by
  have h := march_transmittance_invariant (Params.mk 0 0.5 1 1) ⟨3, 1, 0⟩ ⟨0, 0, 1⟩
    (by norm_num) 0
  exact ⟨by norm_num, h.1, h.2.1⟩

/-! ### C5: straight-line escape with lensing disabled -/

theorem sqrt_dot_smul (c : ℝ) (hc : 0 ≤ c) (u : Vec3) (hu : dot u u = 625) :
    Real.sqrt (dot (Vec3.smul c u) (Vec3.smul c u)) = c * 25 := by
  have hd : dot (Vec3.smul c u) (Vec3.smul c u) = (c * 25) ^ 2 := by
    unfold dot at hu
    unfold dot Vec3.smul
    linear_combination (c ^ 2) * hu
  rw [hd, Real.sqrt_sq (by nlinarith)]

theorem horizon_spin_le_two (s : ℝ) : horizon_r (spin_a s) ≤ 2 := by
  unfold horizon_r
  have h1 : 1 - spin_a s * spin_a s ≤ 1 := by nlinarith [mul_self_nonneg (spin_a s)]
  have h2 := Real.sqrt_le_sqrt h1
  rw [Real.sqrt_one] at h2
  linarith

theorem step_h_far {r hr : ℝ} (h2 : hr ≤ 2) (h25 : 25 ≤ r) : step_h r hr = 0.5 := by
  unfold step_h clampR
  rw [min_eq_right (by nlinarith), max_eq_right (by norm_num)]

theorem step_far (p : Params) (hl : p.lensingEnabled ≤ 0.5) (u : Vec3)
    (hu : dot u u = 625) (c sd : ℝ) (hc : 0 ≤ c) :
    marchStep p ⟨Vec3.smul (1 + c) u, Vec3.smul (1 / 25) u, ⟨0, 0, 0⟩, 1, sd,
        MarchStatus.marching⟩ =
      ⟨Vec3.smul (1 + c + 1 / 50) u, Vec3.smul (1 / 25) u, ⟨0, 0, 0⟩, 1, 0.5,
        if 30 < (1 + c) * 25 then MarchStatus.escaped else MarchStatus.marching⟩ := by
  have h1c : (0 : ℝ) ≤ 1 + c := by linarith
  have hr : Real.sqrt (dot (Vec3.smul (1 + c) u) (Vec3.smul (1 + c) u)) = (1 + c) * 25 :=
    sqrt_dot_smul (1 + c) h1c u hu
  have hhor : horizon_r (spin_a p.spin) ≤ 2 := horizon_spin_le_two p.spin
  have hge : (25 : ℝ) ≤ (1 + c) * 25 := by nlinarith
  simp only [marchStep]
  rw [if_neg (show ¬ (MarchStatus.marching ≠ MarchStatus.marching) from fun h => h rfl)]
  rw [hr]
  rw [if_neg (not_lt.mpr (by linarith : horizon_r (spin_a p.spin) ≤ (1 + c) * 25))]
  rw [if_neg (show ¬ disk_cond 1 (spin_a p.spin) ((1 + c) * 25) |(Vec3.smul (1 + c) u).y|
    from fun h => absurd h.2.2.1 (by unfold accretion_max; intro hlt; nlinarith))]
  rw [if_neg (show ¬ (((⟨0, 0, 0⟩ : Vec3), (1 : ℝ)).2 < 0.01) from by norm_num)]
  rw [step_h_far hhor hge]
  rw [if_neg (not_lt.mpr hl)]
  rw [MarchState.mk.injEq]
  refine ⟨?_, rfl, rfl, rfl, rfl, rfl⟩
  unfold Vec3.add Vec3.smul
  rw [Vec3.mk.injEq]
  refine ⟨by ring, by ring, by ring⟩

theorem straight_state (p : Params) (hl : p.lensingEnabled ≤ 0.5) (u : Vec3)
    (hu : dot u u = 625) :
    ∀ k : ℕ, k ≤ 12 → march p (initState u (Vec3.smul (1 / 25) u)) k =
      ⟨Vec3.smul (1 + (k : ℝ) / 50) u, Vec3.smul (1 / 25) u, ⟨0, 0, 0⟩, 1,
        (if k = 0 then 0 else 0.5),
        (if k = 12 then MarchStatus.escaped else MarchStatus.marching)⟩ := by
  intro k
  induction k with
  | zero =>
      intro _
      simp only [march, initState]
      rw [MarchState.mk.injEq]
      refine ⟨?_, rfl, rfl, rfl, by norm_num, by norm_num⟩
      unfold Vec3.smul
      rw [Vec3.mk.injEq]
      norm_num
  | succ m ih =>
      intro hm
      have hm' : m ≤ 12 := by omega
      have hmne : m ≠ 12 := by omega
      simp only [march]
      rw [ih hm', if_neg hmne]
      have hstep := step_far p hl u hu ((m : ℝ) / 50)
        (if m = 0 then (0 : ℝ) else 0.5) (by positivity)
      rw [hstep, MarchState.mk.injEq]
      refine ⟨?_, rfl, rfl, rfl, by simp, ?_⟩
      · unfold Vec3.smul
        rw [Vec3.mk.injEq]
        push_cast
        refine ⟨by ring, by ring, by ring⟩
      · by_cases h12 : m + 1 = 12
        · have hm11 : m = 11 := by omega
          rw [if_pos h12, hm11]
          rw [if_pos (by norm_num : (30 : ℝ) < (1 + (11 : ℕ) / 50) * 25)]
        · have hm10 : m ≤ 10 := by omega
          have hcast : (m : ℝ) ≤ 10 := by exact_mod_cast hm10
          rw [if_neg h12]
          rw [if_neg (not_lt.mpr (by nlinarith : (1 + (m : ℝ) / 50) * 25 ≤ 30))]

/-- C5: a ray starting at radius 25 and moving directly away from the origin
with lensing disabled escapes: the loop ends in the ESCAPED state with final
radius above 30, the velocity is never modified, and after every step the
position equals the origin plus velocity times the accumulated path length
(0.5 per step, 12 steps until the escape test fires). -/
theorem straight_ray_escapes (p : Params) (u : Vec3)
    (hu : Real.sqrt (dot u u) = 25) (hl : p.lensingEnabled ≤ 0.5) :
    (integrate p u (Vec3.smul (1 / 25) u)).status = MarchStatus.escaped ∧
    30 < Real.sqrt (dot (integrate p u (Vec3.smul (1 / 25) u)).pos
      (integrate p u (Vec3.smul (1 / 25) u)).pos) ∧
    (∀ n : ℕ, (march p (initState u (Vec3.smul (1 / 25) u)) n).vel = Vec3.smul (1 / 25) u) ∧
    (∀ n : ℕ, n ≤ 12 → (march p (initState u (Vec3.smul (1 / 25) u)) n).pos =
      Vec3.add u (Vec3.smul (0.5 * (n : ℝ)) (Vec3.smul (1 / 25) u))) ∧
    (∀ n : ℕ, 12 ≤ n → march p (initState u (Vec3.smul (1 / 25) u)) n =
      march p (initState u (Vec3.smul (1 / 25) u)) 12) := by
  have hdu : dot u u = 625 := by
    have h := Real.sq_sqrt (dot_self_nonneg u)
    rw [hu] at h
    linarith
  have hstate := straight_state p hl u hdu
  have h12 := hstate 12 le_rfl
  have hfrozen : ∀ n, 12 ≤ n → march p (initState u (Vec3.smul (1 / 25) u)) n =
      march p (initState u (Vec3.smul (1 / 25) u)) 12 :=
    march_frozen p _ 12 (by rw [h12]; simp)
  refine ⟨?_, ?_, ?_, ?_, hfrozen⟩
  · unfold integrate
    rw [hfrozen 120 (by norm_num), h12]
    simp
  · unfold integrate
    rw [hfrozen 120 (by norm_num), h12]
    simp only []
    have h31 : Real.sqrt (dot (Vec3.smul (1 + ((12 : ℕ) : ℝ) / 50) u)
        (Vec3.smul (1 + ((12 : ℕ) : ℝ) / 50) u)) = (1 + ((12 : ℕ) : ℝ) / 50) * 25 :=
      sqrt_dot_smul _ (by norm_num) u hdu
    rw [h31]
    norm_num
  · intro n
    rcases le_or_lt n 12 with hn | hn
    · rw [hstate n hn]
    · rw [hfrozen n hn.le, h12]
  · intro n hn
    rw [hstate n hn]
    unfold Vec3.add Vec3.smul
    rw [Vec3.mk.injEq]
    refine ⟨by ring, by ring, by ring⟩

/-- C5 witness: the straight-escape statement applied to the concrete ray
starting at (25, 0, 0). -/
theorem straight_ray_escapes_witness :
    Real.sqrt (dot ⟨25, 0, 0⟩ ⟨25, 0, 0⟩) = 25 ∧
    (Params.mk 0 0.9 1 0).lensingEnabled ≤ 0.5 ∧
    (integrate (Params.mk 0 0.9 1 0) ⟨25, 0, 0⟩
      (Vec3.smul (1 / 25) ⟨25, 0, 0⟩)).status = MarchStatus.escaped := by
  have h : Real.sqrt (dot ⟨25, 0, 0⟩ ⟨25, 0, 0⟩) = 25 := by
    unfold dot
    rw [show (25 : ℝ) * 25 + 0 * 0 + 0 * 0 = 25 ^ 2 by norm_num,
      Real.sqrt_sq (by norm_num)]
  exact ⟨h, by norm_num,
    (straight_ray_escapes (Params.mk 0 0.9 1 0) ⟨25, 0, 0⟩ h (by norm_num)).1⟩
